import Mathlib

/-!
Verification of the macro analysis engine in
`compiler/src/compiler/basic_analysis.py`.

The engine scans an assembly-style source text for `DEFINE` macro
declarations, extracts each macro's name, parameter list and
angle-bracket-delimited body, counts whole-word references to each macro
name, and serializes one report entry per macro.

The embedding below works on `List Char` (the decoded source text).  The
header scan reproduces the behaviour of Python's backtracking regex
engine on the pattern

  DEFINE\s+([^,\s]+)(?:\s*\(([^)]*)\))?\s*,?<

as used with `re.finditer`, specialised to that fixed pattern: greedy
quantifiers prefer the longest alternative and backtrack one character at
a time, the optional group is attempted before being skipped, and
`finditer` yields non-overlapping matches left to right, resuming after
each match's end.  The body scan, newline stripping, parameter splitting,
usage counting and manifest construction are translated line by line from
the source.  File I/O (reading the source path, writing the JSON file) is
outside the embedding: `analyseMacros` takes the decoded text and
`writeManifestData` produces the list of entries that the code serializes.
-/

/-- The character class of the regex `\s` (and of Python's `str.strip()`),
restricted to the ASCII range exercised by this code base. -/
def isWhite (c : Char) : Bool :=
  c == ' ' || c == '\t' || c == '\n' || c == '\r' || c == '\x0b' || c == '\x0c'

/-- The character class `[^,\s]` of the macro-name token in the header regex. -/
def isNameChar (c : Char) : Bool :=
  !(isWhite c || c == ',')

/-- The character class `\w` of the regex word boundary `\b`, restricted to
the ASCII range exercised by this code base: alphanumeric or underscore. -/
def isWordChar (c : Char) : Bool :=
  c.isAlphanum || c == '_'

/-- One record per `DEFINE` declaration, mirroring the dataclass
`MacroDefinition` of `basic_analysis.py` (lines 10-15).  `usages` is a
Python `int`, so it is embedded as `Int`. -/
structure MacroDefinition where
  name : List Char
  parameters : List (List Char)
  body : List Char
  usages : Int := 0
deriving DecidableEq, Repr

/-- The regex fragment `\s*,?<` that closes the declaration header: skip
whitespace, then accept either a comma immediately followed by the opening
angle bracket, or the opening angle bracket itself.  Returns the suffix
after the consumed bracket.  (The whitespace run is forced maximal because
neither a comma nor a bracket is whitespace, and the greedy optional comma
can only succeed when the bracket follows it directly.) -/
def tryTail (s : List Char) : Option (List Char) :=
  match s.dropWhile isWhite with
  | ',' :: '<' :: rest => some rest
  | '<' :: rest => some rest
  | _ => none

/-- The optional regex group `\s*\(([^)]*)\)`: skip whitespace, require an
opening parenthesis, capture up to the first closing parenthesis, require
that closing parenthesis.  Returns the captured raw parameter text and the
suffix after the closing parenthesis. -/
def tryGroup (s : List Char) : Option (List Char × List Char) :=
  match s.dropWhile isWhite with
  | '(' :: rest =>
    match rest.dropWhile (fun c => c != ')') with
    | ')' :: rest2 => some (rest.takeWhile (fun c => c != ')'), rest2)
    | _ => none
  | _ => none

/-- The regex suffix `(?:\s*\(([^)]*)\))?\s*,?<` after a candidate name:
the greedy optional group is attempted first; if it matches but the tail
fails afterwards, the engine retries with the group skipped.  Returns the
captured parameter text (if the group took part in the match) and the
suffix after the consumed opening bracket. -/
def tryAfterName (s : List Char) : Option (Option (List Char) × List Char) :=
  match tryGroup s with
  | some (praw, afterGroup) =>
    match tryTail afterGroup with
    | some rest => some (some praw, rest)
    | none =>
      match tryTail s with
      | some rest => some (none, rest)
      | none => none
  | none =>
    match tryTail s with
    | some rest => some (none, rest)
    | none => none

/-- Backtracking over the greedy name token `([^,\s]+)`: the first argument
is the reversed name candidate (longest first), the second the remaining
text.  Each failure moves the name's last character back onto the text,
exactly as the regex engine shortens a greedy match one character at a
time; the empty candidate fails because `+` requires a non-empty token. -/
def pickName : List Char → List Char → Option (List Char × Option (List Char) × List Char)
  | [], _ => none
  | c :: nr, an =>
    match tryAfterName an with
    | some (praw, rest) => some ((c :: nr).reverse, praw, rest)
    | none => pickName nr (c :: an)

/-- Attempt of the full header regex
`DEFINE\s+([^,\s]+)(?:\s*\(([^)]*)\))?\s*,?<` anchored to the start of
`s`.  On success, returns the captured name, the optional captured raw
parameter text, and the suffix of the source after the match (the position
`match.end()`). -/
def matchHeader (s : List Char) : Option (List Char × Option (List Char) × List Char) :=
  match s with
  | 'D' :: 'E' :: 'F' :: 'I' :: 'N' :: 'E' :: rest =>
    if (rest.takeWhile isWhite).isEmpty then none
    else
      pickName ((rest.dropWhile isWhite).takeWhile isNameChar).reverse
        ((rest.dropWhile isWhite).dropWhile isNameChar)
  | _ => none

/-- Python `str.strip()` on the parameter fragments (line 25), restricted
to the ASCII whitespace of `isWhite`. -/
def pyStrip (l : List Char) : List Char :=
  ((l.dropWhile isWhite).reverse.dropWhile isWhite).reverse

/-- Python `str.split(',')` (line 25): split into the comma-separated
segments, keeping empty segments.  The first argument accumulates the
current segment in reverse. -/
def splitComma : List Char → List Char → List (List Char)
  | acc, [] => [acc.reverse]
  | acc, ',' :: rest => acc.reverse :: splitComma [] rest
  | acc, c :: rest => splitComma (c :: acc) rest

/-- Lines 22-25: `params_raw` is the second regex group (`none` when the
group took no part in the match); Python's truthiness test skips both
`None` and the empty string, otherwise the raw text is split on commas,
each piece stripped, and empty pieces dropped. -/
def parseParams : Option (List Char) → List (List Char)
  | none => []
  | some [] => []
  | some raw => ((splitComma [] raw).map pyStrip).filter (fun p => p != [])

/-- Lines 30-44: the body scan.  Starting after the found opening bracket
with `depth = 1`, walk one character per step: `<` increments the depth
and is kept, `>` decrements it and is kept only while the depth stays
positive, every other character is kept; the scan stops when the depth
reaches zero or the source ends. -/
def scanBody : List Char → Nat → List Char
  | [], _ => []
  | c :: rest, depth =>
    if c == '<' then c :: scanBody rest (depth + 1)
    else if c == '>' then
      if depth ≤ 1 then []
      else c :: scanBody rest (depth - 1)
    else c :: scanBody rest depth

/-- Line 45: Python `str.rstrip('\n')`, removing the trailing newline run. -/
def rstripNewlines (l : List Char) : List Char :=
  (l.reverse.dropWhile (fun c => c == '\n')).reverse

/-- Lines 27-46, the loop body after a successful header match: find the
first `<` at or after `match.end()` (note: the header regex has already
consumed one `<`, so this searches for a further one); if none exists the
declaration is skipped, otherwise the body is scanned from the character
after the found bracket, its trailing newlines stripped, and one record
emitted. -/
def emitFrom (name : List Char) (praw : Option (List Char)) (afterMatch : List Char) :
    List MacroDefinition :=
  match afterMatch.dropWhile (fun c => c != '<') with
  | '<' :: bodyArea =>
    [{ name := name, parameters := parseParams praw,
       body := rstripNewlines (scanBody bodyArea 1) }]
  | _ => []

/-- Lines 18-46, `_iter_macros`, with an explicit fuel argument bounding
the number of scan steps (each step either advances one character past a
failed match position or jumps past a whole successful header match, so
`length + 1` steps always suffice; see the fuel theorems below).
`re.finditer` attempts the pattern at each position from left to right and
resumes after the end of each successful match. -/
def iterMacrosF : Nat → List Char → List MacroDefinition
  | 0, _ => []
  | _ + 1, [] => []
  | fuel + 1, c :: rest =>
    match matchHeader (c :: rest) with
    | none => iterMacrosF fuel rest
    | some (name, praw, after) => emitFrom name praw after ++ iterMacrosF fuel after

/-- `list(_iter_macros(source))` (line 51): the full extraction pass. -/
def iterMacros (s : List Char) : List MacroDefinition :=
  iterMacrosF (s.length + 1) s

/-- Lines 53-54: `len(re.findall(rf"\b{re.escape(name)}\b", source))`,
with an explicit fuel argument.  The scan walks the source left to right
carrying the previous character for the left word boundary; a match of the
escaped (hence literal) name requires a word-boundary on both sides and
the scan resumes after its end, as `re.findall` yields non-overlapping
matches. -/
def wordAt : Option Char → Bool
  | none => false
  | some c => isWordChar c

/-- Does `name` occur literally at the start of `s`? -/
def matchesAt : List Char → List Char → Bool
  | [], _ => true
  | _ :: _, [] => false
  | c :: cs, d :: ds => c == d && matchesAt cs ds

/-- A whole-word match of the literal `name` at the start of `s`, with
`prev` the character just before this position (`none` at the start of the
source): the regex `\b` holds at a position exactly when the word-ness of
the adjacent characters differs, out-of-range counting as non-word. -/
def wordMatchAt (prev : Option Char) (name s : List Char) : Bool :=
  matchesAt name s
    && (wordAt prev != wordAt name.head?)
    && (wordAt name.getLast? != wordAt (s.drop name.length).head?)

/-- The `findall` counting loop, fuelled. -/
def countWMF : Nat → Option Char → List Char → List Char → Nat
  | 0, _, _, _ => 0
  | _ + 1, _, _, [] => 0
  | fuel + 1, prev, name, c :: rest =>
    if !name.isEmpty && wordMatchAt prev name (c :: rest) then
      1 + countWMF fuel name.getLast? name ((c :: rest).drop name.length)
    else
      countWMF fuel (some c) name rest

/-- Number of whole-word occurrences of `name` in `source` (line 54's
`len(...findall(source))`). -/
def countWordMatches (source name : List Char) : Nat :=
  countWMF (source.length + 1) none name source

/-- Lines 49-55, `analyse_macros`, on the decoded source text (the
`path.read_text()` call is caller I/O outside the core): extract all
macros, then set each record's `usages` to the whole-word occurrence count
of its name minus one — the code subtracts the definition occurrence with
no clamping. -/
def analyseMacros (source : List Char) : List MacroDefinition :=
  (iterMacros source).map
    (fun m => { m with usages := (countWordMatches source m.name : Int) - 1 })

/-- One entry of the JSON report written by `write_manifest`. -/
structure ManifestEntry where
  name : List Char
  parameters : List (List Char)
  lines : Int
  usages : Int
deriving DecidableEq, Repr

/-- Lines 58-69, `write_manifest`: the list of entries serialized to the
output file (directory creation and JSON encoding are I/O outside the
core).  `lines` is `body.count('\n') + 1` for a truthy (non-empty) body
and `0` for the empty body. -/
def writeManifestData (macros : List MacroDefinition) : List ManifestEntry :=
  macros.map (fun m =>
    { name := m.name, parameters := m.parameters,
      lines := if m.body.isEmpty then 0 else (m.body.count '\n' : Int) + 1,
      usages := m.usages })

/-! ## Helper lemmas -/

/-- Membership transfers out of a `dropWhile`. -/
theorem mem_of_dropWhile {α : Type} {p : α → Bool} {l : List α} {a : α}
    (h : a ∈ l.dropWhile p) : a ∈ l :=
  (List.dropWhile_sublist p).subset h

/-- Membership transfers out of a `takeWhile`. -/
theorem mem_of_takeWhile {α : Type} {p : α → Bool} {l : List α} {a : α}
    (h : a ∈ l.takeWhile p) : a ∈ l :=
  (List.takeWhile_sublist p).subset h

/-- A `dropWhile` never lengthens the list. -/
theorem dropWhile_length_le {α : Type} (p : α → Bool) (l : List α) :
    (l.dropWhile p).length ≤ l.length :=
  (List.dropWhile_sublist p).length_le

/-- The lengths of the `takeWhile` and `dropWhile` parts sum to the whole. -/
theorem takeWhile_add_dropWhile_length {α : Type} (p : α → Bool) (l : List α) :
    (l.takeWhile p).length + (l.dropWhile p).length = l.length := by
  rw [← List.length_append, List.takeWhile_append_dropWhile]

/-- The head of a `dropWhile` fails the predicate. -/
theorem head?_dropWhile_not {α : Type} (p : α → Bool) :
    ∀ (l : List α) {a : α}, (l.dropWhile p).head? = some a → p a = false := by
  intro l
  induction l with
  | nil => intro a h; simp [List.dropWhile] at h
  | cons c t ih =>
    intro a h
    rw [List.dropWhile_cons] at h
    split at h
    · exact ih h
    · next hp =>
      simp only [List.head?_cons, Option.some.injEq] at h
      subst h
      simpa using hp

/-- The tail `\s*,?<` consumes the opening bracket, so it shortens the text. -/
theorem tryTail_length {s r : List Char} (h : tryTail s = some r) :
    r.length < s.length := by
  unfold tryTail at h
  split at h
  · next rest heq =>
    injection h with h
    subst h
    have hle := dropWhile_length_le isWhite s
    rw [heq] at hle
    simp only [List.length_cons] at hle
    omega
  · next rest heq =>
    injection h with h
    subst h
    have hle := dropWhile_length_le isWhite s
    rw [heq] at hle
    simp only [List.length_cons] at hle
    omega
  · exact Option.noConfusion h

/-- A successful tail `\s*,?<` means the text holds an opening bracket. -/
theorem tryTail_mem {s r : List Char} (h : tryTail s = some r) : '<' ∈ s := by
  unfold tryTail at h
  split at h
  · next rest heq =>
    exact mem_of_dropWhile (p := isWhite) (by rw [heq]; simp)
  · next rest heq =>
    exact mem_of_dropWhile (p := isWhite) (by rw [heq]; simp)
  · exact Option.noConfusion h

/-- What follows a successful parameter group is drawn from the input text. -/
theorem tryGroup_subset {s p r : List Char} (h : tryGroup s = some (p, r)) :
    ∀ a, a ∈ r → a ∈ s := by
  unfold tryGroup at h
  split at h
  · next rest heq =>
    split at h
    · next rest2 heq2 =>
      simp only [Option.some.injEq, Prod.mk.injEq] at h
      intro a ha
      have h1 : a ∈ rest.dropWhile (fun c => c != ')') := by
        rw [heq2]
        exact List.mem_cons_of_mem _ (h.2 ▸ ha)
      have h2 : a ∈ rest := mem_of_dropWhile h1
      have h3 : a ∈ s.dropWhile isWhite := by
        rw [heq]
        exact List.mem_cons_of_mem _ h2
      exact mem_of_dropWhile h3
    · exact Option.noConfusion h
  · exact Option.noConfusion h

/-- The parameter group consumes both parentheses, shortening the text. -/
theorem tryGroup_length {s p r : List Char} (h : tryGroup s = some (p, r)) :
    r.length < s.length := by
  unfold tryGroup at h
  split at h
  · next rest heq =>
    split at h
    · next rest2 heq2 =>
      simp only [Option.some.injEq, Prod.mk.injEq] at h
      have hle := dropWhile_length_le isWhite s
      rw [heq] at hle
      have hle2 := dropWhile_length_le (fun c => c != ')') rest
      rw [heq2] at hle2
      simp only [List.length_cons] at hle hle2
      obtain ⟨-, h2⟩ := h
      subst h2
      omega
    · exact Option.noConfusion h
  · exact Option.noConfusion h

/-- The whole post-name regex suffix shortens the text when it matches. -/
theorem tryAfterName_length {s : List Char} {pr : Option (List Char)} {r : List Char}
    (h : tryAfterName s = some (pr, r)) : r.length < s.length := by
  unfold tryAfterName at h
  split at h
  · next praw afterGroup hg =>
    split at h
    · next rest ht =>
      simp only [Option.some.injEq, Prod.mk.injEq] at h
      exact h.2 ▸ lt_trans (tryTail_length ht) (tryGroup_length hg)
    · split at h
      · next rest ht2 =>
        simp only [Option.some.injEq, Prod.mk.injEq] at h
        exact h.2 ▸ tryTail_length ht2
      · exact Option.noConfusion h
  · next hg =>
    split at h
    · next rest ht =>
      simp only [Option.some.injEq, Prod.mk.injEq] at h
      exact h.2 ▸ tryTail_length ht
    · exact Option.noConfusion h

/-- The post-name suffix can only match when the text holds a bracket. -/
theorem tryAfterName_mem {s : List Char} {pr : Option (List Char)} {r : List Char}
    (h : tryAfterName s = some (pr, r)) : '<' ∈ s := by
  unfold tryAfterName at h
  split at h
  · next praw afterGroup hg =>
    split at h
    · next rest ht =>
      exact tryGroup_subset hg _ (tryTail_mem ht)
    · split at h
      · next rest ht2 => exact tryTail_mem ht2
      · exact Option.noConfusion h
  · next hg =>
    split at h
    · next rest ht => exact tryTail_mem ht
    · exact Option.noConfusion h

/-- Name backtracking shortens the combined candidate-plus-rest text. -/
theorem pickName_length :
    ∀ (nr an : List Char) {nm : List Char} {pr : Option (List Char)} {r : List Char},
      pickName nr an = some (nm, pr, r) → r.length < nr.length + an.length := by
  intro nr
  induction nr with
  | nil => intro an nm pr r h; exact Option.noConfusion h
  | cons c nr ih =>
    intro an nm pr r h
    unfold pickName at h
    split at h
    · next praw rest hta =>
      simp only [Option.some.injEq, Prod.mk.injEq] at h
      have := tryAfterName_length hta
      obtain ⟨-, -, hr⟩ := h
      subst hr
      simp only [List.length_cons]
      omega
    · have := ih (c :: an) h
      simp only [List.length_cons] at this ⊢
      omega

/-- A successful name backtracking step found a bracket somewhere in the
candidate run or in the rest of the text. -/
theorem pickName_mem :
    ∀ (nr an : List Char) {x : List Char × Option (List Char) × List Char},
      pickName nr an = some x → '<' ∈ nr ∨ '<' ∈ an := by
  intro nr
  induction nr with
  | nil => intro an x h; exact Option.noConfusion h
  | cons c nr ih =>
    intro an x h
    unfold pickName at h
    split at h
    · next praw rest hta =>
      exact Or.inr (tryAfterName_mem hta)
    · rcases ih (c :: an) h with hl | hr
      · exact Or.inl (List.mem_cons_of_mem _ hl)
      · rcases List.mem_cons.mp hr with hc | ha
        · exact Or.inl (hc ▸ List.mem_cons_self _ _)
        · exact Or.inr ha

/-- A successful header match strictly shortens the source suffix: the
match consumes at least the keyword, some whitespace, the name and the
opening bracket. -/
theorem matchHeader_length {s nm : List Char} {pr : Option (List Char)} {r : List Char}
    (h : matchHeader s = some (nm, pr, r)) : r.length < s.length := by
  unfold matchHeader at h
  split at h
  · next rest =>
    split at h
    · exact Option.noConfusion h
    · have hpick := pickName_length _ _ h
      have hsum := takeWhile_add_dropWhile_length isNameChar (rest.dropWhile isWhite)
      have hle := dropWhile_length_le isWhite rest
      simp only [List.length_reverse] at hpick
      simp only [List.length_cons]
      omega
  · exact Option.noConfusion h

/-- A successful header match requires an opening bracket in the source:
the regex ends in a literal opening angle bracket. -/
theorem matchHeader_mem {s : List Char} {x : List Char × Option (List Char) × List Char}
    (h : matchHeader s = some x) : '<' ∈ s := by
  unfold matchHeader at h
  split at h
  · next rest =>
    split at h
    · exact Option.noConfusion h
    · rcases pickName_mem _ _ h with hl | hr
      · have h1 : '<' ∈ (rest.dropWhile isWhite).takeWhile isNameChar :=
          List.mem_reverse.mp hl
        have h2 : '<' ∈ rest := mem_of_dropWhile (mem_of_takeWhile h1)
        simp [h2]
      · have h2 : '<' ∈ rest := mem_of_dropWhile (mem_of_dropWhile hr)
        simp [h2]
  · exact Option.noConfusion h

/-- The extraction result does not depend on the fuel once the fuel
exceeds the source length: every scan step consumes at least one source
character. -/
theorem iterMacrosF_congr :
    ∀ (f₁ f₂ : Nat) (s : List Char), s.length < f₁ → s.length < f₂ →
      iterMacrosF f₁ s = iterMacrosF f₂ s := by
  intro f₁
  induction f₁ with
  | zero => intro f₂ s h₁ h₂; exact absurd h₁ (Nat.not_lt_zero _)
  | succ k ih =>
    intro f₂ s h₁ h₂
    match f₂, s with
    | 0, s => exact absurd h₂ (Nat.not_lt_zero _)
    | m + 1, [] => rfl
    | m + 1, c :: rest =>
      cases hm : matchHeader (c :: rest) with
      | none =>
        simp only [iterMacrosF, hm]
        simp only [List.length_cons] at h₁ h₂
        exact ih m rest (by omega) (by omega)
      | some x =>
        obtain ⟨nm, pr, r⟩ := x
        have hr := matchHeader_length hm
        simp only [iterMacrosF, hm]
        simp only [List.length_cons] at h₁ h₂
        simp only [List.length_cons] at hr
        rw [ih m r (by omega) (by omega)]

/-- With no opening bracket anywhere, no header can match, so no scan
step ever emits a record. -/
theorem iterMacrosF_eq_nil :
    ∀ (fuel : Nat) {s : List Char}, (∀ c ∈ s, c ≠ '<') → iterMacrosF fuel s = [] := by
  intro fuel
  induction fuel with
  | zero => intro s h; rfl
  | succ k ih =>
    intro s h
    match s with
    | [] => rfl
    | c :: rest =>
      cases hm : matchHeader (c :: rest) with
      | some x =>
        exact absurd rfl (h '<' (matchHeader_mem hm))
      | none =>
        simp only [iterMacrosF, hm]
        exact ih (fun x hx => h x (List.mem_cons_of_mem _ hx))

/-- The rstripped body never ends with a newline. -/
theorem rstripNewlines_getLast {l : List Char} :
    (rstripNewlines l).getLast? ≠ some '\n' := by
  unfold rstripNewlines
  rw [List.getLast?_reverse]
  intro h
  have := head?_dropWhile_not (fun c => c == '\n') l.reverse h
  simp at this

/-- Every record an `emitFrom` step produces has an rstripped body. -/
theorem emitFrom_body {nm : List Char} {pr : Option (List Char)} {after : List Char}
    {m : MacroDefinition} (h : m ∈ emitFrom nm pr after) :
    m.body.getLast? ≠ some '\n' := by
  unfold emitFrom at h
  split at h
  · next bodyArea heq =>
    simp only [List.mem_singleton] at h
    subst h
    exact rstripNewlines_getLast
  · exact absurd h (List.not_mem_nil _)

/-- Every record in a fuelled extraction run has an rstripped body. -/
theorem iterMacrosF_body :
    ∀ (fuel : Nat) {s : List Char} {m : MacroDefinition},
      m ∈ iterMacrosF fuel s → m.body.getLast? ≠ some '\n' := by
  intro fuel
  induction fuel with
  | zero => intro s m h; exact absurd h (List.not_mem_nil _)
  | succ k ih =>
    intro s m h
    match s with
    | [] => exact absurd h (List.not_mem_nil _)
    | c :: rest =>
      cases hm : matchHeader (c :: rest) with
      | none =>
        simp only [iterMacrosF, hm] at h
        exact ih h
      | some x =>
        obtain ⟨nm, pr, r⟩ := x
        simp only [iterMacrosF, hm] at h
        rcases List.mem_append.mp h with hL | hR
        · exact emitFrom_body hL
        · exact ih hR

/-- The usage annotation of any analysed record is the whole-word count of
its name minus one. -/
theorem analyse_usages_eq {source : List Char} {m : MacroDefinition}
    (h : m ∈ analyseMacros source) :
    m.usages = (countWordMatches source m.name : Int) - 1 := by
  unfold analyseMacros at h
  rw [List.mem_map] at h
  obtain ⟨m₀, -, rfl⟩ := h
  rfl


/-! ## Claim theorems -/

/-- C1: For the source text `DEFINE PAL(n)<LDA #n>` followed by two `PAL`
usage lines, extraction followed by usage annotation yields NO record at
all (the claim expects one record named PAL with parameters n, body
`LDA #n` and usage count 2): the header regex consumes the only opening
bracket — greedily taking `PAL(n)` as the name, since the parenthesized
list holds no comma — and the body search then looks for a second opening
bracket, which does not exist, so the declaration is skipped. -/
theorem pal_scenario_code_eval :
    analyseMacros ("DEFINE PAL(n)<LDA #n>\nPAL 1\nPAL 2\n").data = [] := by decide

/-- C2: For the source `DEFINE X < outer < inner > still-outer >` the
extracted body is `" inner "`, not `" outer < inner > still-outer "` as
the claim states: the body scan starts after the SECOND opening bracket
(the nested one), because the header regex already consumed the first and
the code searches onward from the match end. -/
theorem nesting_scenario_code_eval :
    iterMacros ("DEFINE X < outer < inner > still-outer >").data =
      [{ name := ['X'], parameters := [], body := (" inner ").data, usages := 0 }] := by
  decide

/-- C3: The shape `DEFINE NAME(a, b), < body >` yields NO record (the
claim expects name NAME, parameters a and b, body `" body "`): the header
regex allows no whitespace between the optional comma and the opening
bracket, so it never matches this shape; even without that space the body
search would still demand a second opening bracket. -/
theorem header_shape_code_eval :
    iterMacros ("DEFINE NAME(a, b), < body >").data = [] := by decide

/-- C4 counterexample: the analysis can report a NEGATIVE usage count.
For `DEFINE + <<x>` the extracted macro is named `+`; the whole-word
pattern finds no occurrence of `+` (both neighbours of a word boundary
must differ in word-ness, and `+` is not a word character), so the count
is 0 and the code's unclamped subtraction yields -1. -/
theorem usage_negative_counterexample :
    analyseMacros ("DEFINE + <<x>").data =
      [{ name := ['+'], parameters := [], body := ['x'], usages := -1 }] := by decide

/-- C4 amended: for every source text and every record produced by the
analysis, the annotated usage count equals the number of whole-word
matches of the macro's name in the source minus 1, with NO clamping: the
result is -1 whenever whole-word matching finds zero occurrences of the
name. -/
theorem usage_count_formula (source : List Char) (m : MacroDefinition)
    (h : m ∈ analyseMacros source) :
    m.usages = (countWordMatches source m.name : Int) - 1 :=
  analyse_usages_eq h

theorem usage_count_formula_witness :
    ((⟨['+'], [], ['x'], -1⟩ : MacroDefinition) ∈
        analyseMacros ("DEFINE + <<x>").data) ∧
    (⟨['+'], [], ['x'], -1⟩ : MacroDefinition).usages =
      (countWordMatches ("DEFINE + <<x>").data
        (⟨['+'], [], ['x'], -1⟩ : MacroDefinition).name : Int) - 1 :=
  ⟨by decide, usage_count_formula _ _ (by decide)⟩

/-- C5 counterexample: a body whose captured text begins with newline
characters DOES start with a newline in the emitted record: for
`DEFINE X <<\nA>` the captured body is `"\nA"` and the record keeps the
leading newline, because the code only rstrips. -/
theorem body_leading_newline_counterexample :
    iterMacros ("DEFINE X <<\nA>").data =
      [{ name := ['X'], parameters := [], body := '\n' :: ['A'], usages := 0 }] := by
  decide

/-- C5 amended: for every extracted macro record, the stored body is the
captured delimiter-enclosed text with only the TRAILING newline run
removed (Python rstrip); in particular no emitted body ever ends with a
newline, while leading newlines are preserved. -/
theorem body_trailing_newlines_stripped (s : List Char) (m : MacroDefinition)
    (h : m ∈ iterMacros s) : m.body.getLast? ≠ some '\n' :=
  iterMacrosF_body _ h

theorem body_trailing_newlines_stripped_witness :
    ((⟨['X'], [], ['A'], 0⟩ : MacroDefinition) ∈
        iterMacros ("DEFINE X <<A\n\n>").data) ∧
    (⟨['X'], [], ['A'], 0⟩ : MacroDefinition).body.getLast? ≠ some '\n' :=
  ⟨by decide, body_trailing_newlines_stripped (("DEFINE X <<A\n\n>").data)
    ⟨['X'], [], ['A'], 0⟩ (by decide)⟩

/-- C6 counterexample: a DEFINE keyword occurring strictly inside an
emitted macro's body CAN produce a record of its own: in
`DEFINE A << DEFINE B <<x> y> z>` the record for A has body
`" DEFINE B <<x> y> z"` — which contains the declaration of B — and B is
nevertheless emitted as a second record, because scanning resumes at the
header match's end (just past the consumed bracket), inside A's body. -/
theorem define_in_body_counterexample :
    iterMacros ("DEFINE A << DEFINE B <<x> y> z>").data =
      [{ name := ['A'], parameters := [],
          body := (" DEFINE B <<x> y> z").data, usages := 0 },
        { name := ['B'], parameters := [], body := ['x'], usages := 0 }] := by
  decide

/-- C6 amended: after a header matches, scanning for the next DEFINE
resumes at the position where the HEADER MATCH ended (just past the
opening bracket the regex consumed), not after the position where the
body ended: the remaining records are exactly those extracted from the
suffix after the match. -/
theorem resumes_after_match (s nm : List Char) (pr : Option (List Char))
    (after : List Char) (h : matchHeader s = some (nm, pr, after)) :
    iterMacros s = emitFrom nm pr after ++ iterMacros after := by
  match s with
  | [] => exact Option.noConfusion h
  | c :: rest =>
    have hlen := matchHeader_length h
    unfold iterMacros
    simp only [iterMacrosF, h]
    rw [iterMacrosF_congr ((c :: rest).length) (after.length + 1) after hlen
      (Nat.lt_succ_self _)]

theorem resumes_after_match_witness :
    (matchHeader ("DEFINE A <<x> DEFINE B <<y>").data =
      some (['A'], none, ("<x> DEFINE B <<y>").data)) ∧
    iterMacros ("DEFINE A <<x> DEFINE B <<y>").data =
      emitFrom ['A'] none (("<x> DEFINE B <<y>").data) ++
        iterMacros ("<x> DEFINE B <<y>").data :=
  ⟨by decide, resumes_after_match _ _ _ _ (by decide)⟩

/-- C7: a source containing no opening angle bracket at all yields an
empty record sequence (and extraction, being a total function, raises no
error): the header regex itself demands an opening bracket, so a DEFINE
with no following bracket anywhere contributes no record. -/
theorem malformed_define_skipped (s : List Char) (h : ∀ c ∈ s, c ≠ '<') :
    iterMacros s = [] :=
  iterMacrosF_eq_nil _ h

theorem malformed_define_skipped_witness :
    (∀ c ∈ ("DEFINE BAD no-body here").data, c ≠ '<') ∧
    iterMacros ("DEFINE BAD no-body here").data = [] :=
  ⟨by decide, malformed_define_skipped _ (by decide)⟩

/-- C8: the report holds exactly one entry per record in the same order:
it has the same length as the record list, and the entry at every valid
index is built from the record at that index, its lines field being 1
plus the number of newlines in the body when the body is non-empty and 0
when the body is empty. -/
theorem manifest_entries (macros : List MacroDefinition) (i : Nat)
    (_h : i < macros.length) :
    (writeManifestData macros).length = macros.length ∧
    (writeManifestData macros)[i]? = (macros[i]?).map (fun m =>
      { name := m.name, parameters := m.parameters,
        lines := if m.body.isEmpty then 0 else (m.body.count '\n' : Int) + 1,
        usages := m.usages }) := by
  constructor
  · simp [writeManifestData]
  · rw [writeManifestData, List.getElem?_map]

theorem manifest_entries_witness :
    (0 < ([⟨['A'], [], 'x' :: '\n' :: ['y'], 2⟩,
        ⟨['B'], [], [], 0⟩] : List MacroDefinition).length) ∧
    ((writeManifestData [⟨['A'], [], 'x' :: '\n' :: ['y'], 2⟩,
        ⟨['B'], [], [], 0⟩]).length =
      ([⟨['A'], [], 'x' :: '\n' :: ['y'], 2⟩,
        ⟨['B'], [], [], 0⟩] : List MacroDefinition).length ∧
    (writeManifestData [⟨['A'], [], 'x' :: '\n' :: ['y'], 2⟩,
        ⟨['B'], [], [], 0⟩])[0]? =
      (([⟨['A'], [], 'x' :: '\n' :: ['y'], 2⟩,
        ⟨['B'], [], [], 0⟩] : List MacroDefinition)[0]?).map (fun m =>
        { name := m.name, parameters := m.parameters,
          lines := if m.body.isEmpty then 0 else (m.body.count '\n' : Int) + 1,
          usages := m.usages })) :=
  ⟨by decide, manifest_entries _ 0 (by decide)⟩

/-- C9: extraction terminates on every finite input: the fuelled scan is
independent of the fuel as soon as the fuel exceeds the source length,
because each step either advances one character past a failed match
position or jumps past a whole successful header match, so the pass is a
total function of the source text. -/
theorem extraction_terminates (s : List Char) (fuel : Nat)
    (h : s.length < fuel) : iterMacrosF fuel s = iterMacros s :=
  iterMacrosF_congr fuel (s.length + 1) s h (Nat.lt_succ_self _)

theorem extraction_terminates_witness :
    (("DEFINE A <<x>").data.length < 100) ∧
    iterMacrosF 100 ("DEFINE A <<x>").data = iterMacros ("DEFINE A <<x>").data :=
  ⟨by decide, extraction_terminates _ 100 (by decide)⟩

/-- C10: the usage count depends only on the record's name and the source
text, so any two records carrying the same name receive identical usage
counts. -/
theorem same_name_same_usages (source : List Char) (m₁ m₂ : MacroDefinition)
    (h₁ : m₁ ∈ analyseMacros source) (h₂ : m₂ ∈ analyseMacros source)
    (hn : m₁.name = m₂.name) : m₁.usages = m₂.usages := by
  rw [analyse_usages_eq h₁, analyse_usages_eq h₂, hn]

theorem same_name_same_usages_witness :
    ((⟨['Z'], [], ['a'], 1⟩ : MacroDefinition) ∈
        analyseMacros ("DEFINE Z <<a> DEFINE Z <<b>").data) ∧
    ((⟨['Z'], [], ['b'], 1⟩ : MacroDefinition) ∈
        analyseMacros ("DEFINE Z <<a> DEFINE Z <<b>").data) ∧
    (⟨['Z'], [], ['a'], 1⟩ : MacroDefinition).name =
      (⟨['Z'], [], ['b'], 1⟩ : MacroDefinition).name ∧
    (⟨['Z'], [], ['a'], 1⟩ : MacroDefinition).usages =
      (⟨['Z'], [], ['b'], 1⟩ : MacroDefinition).usages :=
  ⟨by decide, by decide, by decide,
    same_name_same_usages (("DEFINE Z <<a> DEFINE Z <<b>").data)
      ⟨['Z'], [], ['a'], 1⟩ ⟨['Z'], [], ['b'], 1⟩
      (by decide) (by decide) (by decide)⟩
